import Mathlib

/-!
# Verification of the go-cidr-pkg CIDR decomposition and range merge

Shallow embedding of `go-cidr-pkg.go`.  An IP address of family length
`len` bytes (4 or 16) is a big-endian unsigned byte sequence; all the
arithmetic the package performs on it (increment with carry, xor,
lexicographic comparison, leading/trailing zero-bit counts, or with the
inverted CIDR mask) coincides with the corresponding operation on the
unsigned integer value of the `w = 8 * len`-bit word.  We therefore model
an address as a `Nat` below `2 ^ w`, with the bit width `w` passed
explicitly, and each Go helper as the corresponding function on `Nat`
with overflow taken `% 2 ^ w` exactly where the byte code wraps.
-/

namespace GoCidr

/-- Model of `addOne` (go-cidr-pkg.go): big-endian increment with carry; carrying out
of the top byte wraps the value to zero, i.e. `(x + 1) % 2 ^ w`. -/
def addOne (w x : Nat) : Nat := (x + 1) % 2 ^ w

/-- Number of binary digits of `x` (`0` for `0`), computed with fuel so the
definition is structural.  `bitLenAux f x` is the bit length of `x` for any
`x < 2 ^ f`. -/
def bitLenAux : Nat → Nat → Nat
  | 0, _ => 0
  | f + 1, x => if x = 0 then 0 else bitLenAux f (x / 2) + 1

/-- Model of `prefixLength` (go-cidr-pkg.go): scans bytes from the most significant
end and counts leading zero bits of the `w`-bit value; returns `w` when the
value is zero.  Equals `w` minus the bit length. -/
def prefixLength (w x : Nat) : Nat := w - bitLenAux w x

/-- Trailing zero-bit count with fuel: for `x = 0` returns the fuel
(`trailingZeros` of the all-zero address is the full width). -/
def tzAux : Nat → Nat → Nat
  | 0, _ => 0
  | f + 1, x => if x % 2 = 1 then 0 else tzAux f (x / 2) + 1

/-- Model of `trailingZeros` (go-cidr-pkg.go): scans bytes from the least significant
end and counts trailing zero bits of the `w`-bit value; returns `w` when the
value is zero. -/
def trailingZeros (w x : Nat) : Nat := tzAux w x

/-- Model of `lastIp` (go-cidr-pkg.go): `ip[i] |= ^mask[i]` with
`mask = CIDRMask(cidr, w)`, i.e. or the base with the low `w - cidr` bits
set. -/
def lastIp (w base cidr : Nat) : Nat := base ||| (2 ^ (w - cidr) - 1)

/-- One unfolding of the `for` loop of `Range.ToIpNets`, with explicit fuel
(the Go loop is unbounded; `none` records fuel exhaustion and is proved
unreachable for the fuel used by `toIpNets`).  Faithful to the source:
break when `s > e`; emit `{IP: s, Mask: CIDRMask(cidr, w)}` with
`cidr = max(prefixLength(xor(addOne(e), s)), w - trailingZeros(s))`; stop
after emitting unless `lastIp < e`; otherwise continue from
`addOne(lastIp)`. -/
def toIpNetsAux (w : Nat) : Nat → Nat → Nat → Option (List (Nat × Nat))
  | 0, _, _ => none
  | fuel + 1, s, e =>
    if e < s then some []
    else
      let cidr := max (prefixLength w (addOne w e ^^^ s)) (w - trailingZeros w s)
      let tmp := lastIp w s cidr
      if tmp < e then
        match toIpNetsAux w fuel (addOne w tmp) e with
        | none => none
        | some rest => some ((s, cidr) :: rest)
      else some [(s, cidr)]

/-- Model of `Range.ToIpNets` (go-cidr-pkg.go) on the numeric values of
`r.start, r.end`.  The fuel `e + 2 - s` always suffices because every
iteration strictly increases `s` (proved below), so the `getD` default is
never taken on inputs the byte representation can produce. -/
def toIpNets (w s e : Nat) : List (Nat × Nat) := (toIpNetsAux w (e + 2 - s) s e).getD []

/-- Model of `Range` (go-cidr-pkg.go): `{start, end net.IP}`, both inclusive. -/
structure Range where
  start : Nat
  endIp : Nat
  deriving DecidableEq, Repr

/-- Model of `Range.ToIpNets` on a `Range` value. -/
def Range.ToIpNets (w : Nat) (r : Range) : List (Nat × Nat) := toIpNets w r.start r.endIp

/-- Model of `IpNetWrapper.ToRange` (go-cidr-pkg.go): `{start: ipNet.IP, end: lastIp(ipNet)}`. -/
def ipNetToRange (w base cidr : Nat) : Range := ⟨base, lastIp w base cidr⟩

/-- Membership of address `a` in the inclusive interval of `r`. -/
def inRange (r : Range) (a : Nat) : Prop := r.start ≤ a ∧ a ≤ r.endIp

instance (r : Range) (a : Nat) : Decidable (inRange r a) := by
  unfold inRange; infer_instance

/-- Address `a` is covered by some interval of `rs`. -/
def covers (rs : List Range) (a : Nat) : Prop := ∃ r ∈ rs, inRange r a

instance (rs : List Range) (a : Nat) : Decidable (covers rs a) := by
  unfold covers; infer_instance

/-- The comparison `sort.Slice` uses in `MergeRanges`: ascending by start
address (`bytes.Compare(rangeList[i].start, rangeList[j].start) < 0`). -/
def startLE (a b : Range) : Prop := a.start ≤ b.start

instance : DecidableRel startLE := fun a b => Nat.decLe a.start b.start

instance : IsTotal Range startLE := ⟨fun a b => Nat.le_total a.start b.start⟩

instance : IsTrans Range startLE := ⟨fun _ _ _ => Nat.le_trans⟩

/-- The sorting step of `MergeRanges`: some permutation of the input sorted
ascending by start (Go's `sort.Slice` is an unstable comparison sort; ties
are broken arbitrarily, modeled here by a stable sort). -/
def sortRanges (rs : List Range) : List Range := rs.insertionSort startLE

/-- Model of `if bytes.Compare(current.end, next.end) < 0` followed by `current.end = next.end`:
the write to the accumulator's end field. -/
def extendEnd (cur nx : Range) : Range :=
  if cur.endIp < nx.endIp then ⟨cur.start, nx.endIp⟩ else cur

/-- The merge scan of `MergeRanges`, including the aliasing the Go code has:
`current` is a pointer into the sorted slice, and `current.end = next.end`
writes through it.  `mergeScan w cur rest` returns
`(outputs, final value of the slot current occupies, final values of the
rest slots)`; slots that never serve as `current` keep their original
value. -/
def mergeScan (w : Nat) : Range → List Range → List Range × Range × List Range
  | cur, [] => ([cur], cur, [])
  | cur, nx :: rest =>
    if nx.start ≤ addOne w cur.endIp then
      -- overlap or adjacency: extend current's end to the larger end
      let res := mergeScan w (extendEnd cur nx) rest
      (res.1, res.2.1, nx :: res.2.2)
    else
      -- emit current, move to next
      let res := mergeScan w nx rest
      (cur :: res.1, cur, res.2.1 :: res.2.2)

/-- Model of `MergeRanges` (go-cidr-pkg.go): empty input returns it unchanged;
otherwise sort ascending by start and run the merge scan. -/
def MergeRanges (w : Nat) (rs : List Range) : List Range :=
  match sortRanges rs with
  | [] => []
  | h :: t => (mergeScan w h t).1

/-- The values of the input `Range`s (in sorted order) after `MergeRanges`
returns: Go's `r.ToRange()` returns the receiver itself for a `*Range`
input, so the scan's writes to `current.end` are visible to the caller. -/
def mergeFinalStates (w : Nat) (rs : List Range) : List Range :=
  match sortRanges rs with
  | [] => []
  | h :: t => (mergeScan w h t).2.1 :: (mergeScan w h t).2.2

/-! ## Bit-length (leading zero count) lemmas -/

theorem bitLenAux_le_iff (f : Nat) : ∀ {x : Nat} (k : Nat), x < 2 ^ f →
    (bitLenAux f x ≤ k ↔ x < 2 ^ k) := by
  induction f with
  | zero =>
    intro x k hx
    have hx0 : x = 0 := Nat.lt_one_iff.mp (by simpa using hx)
    subst hx0
    simp [bitLenAux, Nat.pos_pow_of_pos]
  | succ f ih =>
    intro x k hx
    by_cases h0 : x = 0
    · subst h0
      simp [bitLenAux, Nat.pos_pow_of_pos]
    · rw [bitLenAux, if_neg h0]
      have hdiv : x / 2 < 2 ^ f := by
        rw [Nat.div_lt_iff_lt_mul (by norm_num)]
        calc x < 2 ^ (f + 1) := hx
        _ = 2 ^ f * 2 := by rw [Nat.pow_succ]
      cases k with
      | zero =>
        simp only [Nat.le_zero, Nat.add_eq_zero, Nat.pow_zero, Nat.lt_one_iff]
        constructor
        · intro h; exact absurd h (by omega)
        · intro h; exact absurd h h0
      | succ k =>
        rw [Nat.add_le_add_iff_right, ih k hdiv]
        rw [Nat.div_lt_iff_lt_mul (by norm_num), ← Nat.pow_succ]

theorem bitLenAux_self_le (f x : Nat) (hx : x < 2 ^ f) : bitLenAux f x ≤ f :=
  (bitLenAux_le_iff f f hx).mpr hx

theorem lt_two_pow_bitLenAux (f x : Nat) (hx : x < 2 ^ f) : x < 2 ^ bitLenAux f x :=
  (bitLenAux_le_iff f _ hx).mp Nat.le.refl

theorem bitLenAux_ne_zero (f x : Nat) (hx : x < 2 ^ f) (h0 : x ≠ 0) :
    bitLenAux f x ≠ 0 := by
  intro h
  have := (bitLenAux_le_iff f 0 hx).mp (Nat.le_of_eq h)
  simp [Nat.lt_one_iff] at this
  exact h0 this

theorem two_pow_bitLenAux_pred_le (f x : Nat) (hx : x < 2 ^ f) (h0 : x ≠ 0) :
    2 ^ (bitLenAux f x - 1) ≤ x := by
  by_contra h
  have hlt : x < 2 ^ (bitLenAux f x - 1) := Nat.lt_of_not_le h
  have := (bitLenAux_le_iff f (bitLenAux f x - 1) hx).mpr hlt
  have := bitLenAux_ne_zero f x hx h0
  omega

/-! ## Trailing zero count lemmas -/

theorem two_pow_tzAux_dvd (f : Nat) : ∀ x, 2 ^ tzAux f x ∣ x := by
  induction f with
  | zero => intro x; simp [tzAux]
  | succ f ih =>
    intro x
    rw [tzAux]
    by_cases h : x % 2 = 1
    · simp [h]
    · rw [if_neg h]
      have h2 : (2 : Nat) * (x / 2) = x := by omega
      calc (2 : Nat) ^ (tzAux f (x / 2) + 1)
          = 2 * 2 ^ tzAux f (x / 2) := by rw [Nat.pow_succ]; ring
        _ ∣ 2 * (x / 2) := Nat.mul_dvd_mul_left 2 (ih (x / 2))
        _ = x := h2

theorem tzAux_le (f : Nat) : ∀ x, tzAux f x ≤ f := by
  induction f with
  | zero => intro x; simp [tzAux]
  | succ f ih =>
    intro x
    rw [tzAux]
    by_cases h : x % 2 = 1
    · simp [h]
    · rw [if_neg h]
      exact Nat.succ_le_succ (ih _)

theorem tzAux_zero (f : Nat) : tzAux f 0 = f := by
  induction f with
  | zero => simp [tzAux]
  | succ f ih => rw [tzAux]; simp [ih]

theorem tzAux_of_odd (f x : Nat) (h : x % 2 = 1) : tzAux f x = 0 := by
  cases f with
  | zero => simp [tzAux]
  | succ f => rw [tzAux, if_pos h]

theorem tzAux_div_odd (f : Nat) : ∀ x, x ≠ 0 → x < 2 ^ f →
    (x / 2 ^ tzAux f x) % 2 = 1 := by
  induction f with
  | zero =>
    intro x h0 hx
    exact absurd (Nat.lt_one_iff.mp (by simpa using hx)) h0
  | succ f ih =>
    intro x h0 hx
    rw [tzAux]
    by_cases h : x % 2 = 1
    · simp [h]
    · rw [if_neg h]
      have h2 : x / 2 ≠ 0 := by omega
      have hdiv : x / 2 < 2 ^ f := by
        rw [Nat.div_lt_iff_lt_mul (by norm_num), ← Nat.pow_succ]
        exact hx
      have heq : x / 2 / 2 ^ tzAux f (x / 2) = x / 2 ^ (tzAux f (x / 2) + 1) := by
        rw [Nat.div_div_eq_div_mul]
        congr 1
        rw [Nat.pow_succ]
        ring
      rw [← heq]
      exact ih (x / 2) h2 hdiv

theorem div_two_pow_even {x m : Nat} (h : 2 ^ (m + 1) ∣ x) : (x / 2 ^ m) % 2 = 0 := by
  obtain ⟨c, hc⟩ := h
  subst hc
  have heq : 2 ^ (m + 1) * c = 2 ^ m * (2 * c) := by rw [Nat.pow_succ]; ring
  rw [heq, Nat.mul_div_cancel_left _ (Nat.pos_pow_of_pos _ (by norm_num))]
  omega

theorem le_tzAux (f x m : Nat) (hx : x < 2 ^ f) (h0 : x ≠ 0) (hdvd : 2 ^ m ∣ x) :
    m ≤ tzAux f x := by
  by_contra h
  have h1 : 2 ^ (tzAux f x + 1) ∣ x :=
    dvd_trans (Nat.pow_dvd_pow 2 (by omega)) hdvd
  have h2 := div_two_pow_even h1
  have h3 := tzAux_div_odd f x h0 hx
  omega

theorem tzAux_lt (f x : Nat) (h0 : x ≠ 0) (hx : x < 2 ^ f) : tzAux f x < f := by
  have hdvd := two_pow_tzAux_dvd f x
  have hle : 2 ^ tzAux f x ≤ x := Nat.le_of_dvd (Nat.pos_of_ne_zero h0) hdvd
  have : 2 ^ tzAux f x < 2 ^ f := Nat.lt_of_le_of_lt hle hx
  exact (Nat.pow_lt_pow_iff_right (by norm_num)).mp this

theorem tzAux_eq (f x m : Nat) (hx : x < 2 ^ f) (hdvd : 2 ^ m ∣ x)
    (hodd : (x / 2 ^ m) % 2 = 1) : tzAux f x = m := by
  have h0 : x ≠ 0 := by
    intro h; subst h; simp at hodd
  refine Nat.le_antisymm ?_ (le_tzAux f x m hx h0 hdvd)
  by_contra h
  have h1 : 2 ^ (m + 1) ∣ x :=
    dvd_trans (Nat.pow_dvd_pow 2 (by omega)) (two_pow_tzAux_dvd f x)
  have h2 := div_two_pow_even h1
  omega

/-! ## lastIp lemmas -/

theorem lastIp_eq (w b c : Nat) :
    lastIp w b c = 2 ^ (w - c) * (b / 2 ^ (w - c)) + (2 ^ (w - c) - 1) := by
  apply Nat.eq_of_testBit_eq
  intro i
  have hk : (2 : Nat) ^ (w - c) - 1 < 2 ^ (w - c) :=
    Nat.sub_lt (Nat.pos_pow_of_pos _ (by norm_num)) (by norm_num)
  rw [lastIp, Nat.testBit_lor, Nat.testBit_two_pow_sub_one,
    Nat.testBit_mul_pow_two_add _ hk]
  by_cases h : i < w - c
  · simp [h]
  · have hdiv : b.testBit i = (b / 2 ^ (w - c)).testBit (i - (w - c)) := by
      rw [← Nat.shiftRight_eq_div_pow, Nat.testBit_shiftRight]
      congr 1
      omega
    simp [h, hdiv]

theorem le_lastIp (w b c : Nat) : b ≤ lastIp w b c := by
  rw [lastIp_eq]
  have h1 : 2 ^ (w - c) * (b / 2 ^ (w - c)) + b % 2 ^ (w - c) = b := Nat.div_add_mod _ _
  have h2 : b % 2 ^ (w - c) < 2 ^ (w - c) :=
    Nat.mod_lt _ (Nat.pos_pow_of_pos _ (by norm_num))
  omega

theorem lastIp_lt (w b c : Nat) (hb : b < 2 ^ w) : lastIp w b c < 2 ^ w := by
  rw [lastIp_eq]
  have hq : b / 2 ^ (w - c) < 2 ^ (w - (w - c)) := by
    rw [Nat.div_lt_iff_lt_mul (Nat.pos_pow_of_pos _ (by norm_num)), ← Nat.pow_add]
    have : w - (w - c) + (w - c) = w := by omega
    rw [this]
    exact hb
  have h2 : 2 ^ (w - c) * (b / 2 ^ (w - c) + 1) ≤ 2 ^ (w - c) * 2 ^ (w - (w - c)) :=
    Nat.mul_le_mul_left _ hq
  rw [← Nat.pow_add] at h2
  have hcw : w - c + (w - (w - c)) = w := by omega
  rw [hcw] at h2
  have h3 : (2 : Nat) ^ (w - c) ≥ 1 := Nat.pos_pow_of_pos _ (by norm_num)
  calc 2 ^ (w - c) * (b / 2 ^ (w - c)) + (2 ^ (w - c) - 1)
      < 2 ^ (w - c) * (b / 2 ^ (w - c) + 1) := by
        rw [Nat.mul_add, Nat.mul_one]
        omega
    _ ≤ 2 ^ w := h2

theorem lastIp_of_dvd (w b c : Nat) (h : 2 ^ (w - c) ∣ b) :
    lastIp w b c = b + (2 ^ (w - c) - 1) := by
  rw [lastIp_eq, Nat.mul_div_cancel' h]

/-! ## xor lemmas -/

theorem xor_div_two_pow (a b m : Nat) : (a ^^^ b) / 2 ^ m = a / 2 ^ m ^^^ b / 2 ^ m := by
  apply Nat.eq_of_testBit_eq
  intro i
  rw [← Nat.shiftRight_eq_div_pow, ← Nat.shiftRight_eq_div_pow, ← Nat.shiftRight_eq_div_pow,
    Nat.testBit_shiftRight, Nat.testBit_xor, Nat.testBit_xor,
    Nat.testBit_shiftRight, Nat.testBit_shiftRight]

theorem div_eq_of_xor_lt {a b m : Nat} (h : a ^^^ b < 2 ^ m) : a / 2 ^ m = b / 2 ^ m := by
  have h1 := xor_div_two_pow a b m
  rw [Nat.div_eq_of_lt h] at h1
  exact Nat.xor_eq_zero.mp h1.symm

theorem xor_mul_two_pow (a b k : Nat) : a * 2 ^ k ^^^ b * 2 ^ k = (a ^^^ b) * 2 ^ k := by
  apply Nat.eq_of_testBit_eq
  intro i
  rw [← Nat.shiftLeft_eq, ← Nat.shiftLeft_eq, ← Nat.shiftLeft_eq]
  by_cases h : k ≤ i
  · simp [Nat.testBit_xor, h]
  · simp [Nat.testBit_xor, h]

theorem succ_xor_self_of_even {a : Nat} (h : a % 2 = 0) : (a + 1) ^^^ a = 1 := by
  have h1 : a + 1 = a ^^^ 1 := by
    apply Nat.eq_of_testBit_eq
    intro i
    cases i with
    | zero =>
      rw [Nat.testBit_zero, Nat.testBit_xor, Nat.testBit_zero, Nat.testBit_zero]
      have : (a + 1) % 2 = 1 := by omega
      simp [this, h]
    | succ i =>
      rw [Nat.testBit_succ, Nat.testBit_xor, Nat.testBit_succ, Nat.testBit_succ]
      have h2 : (a + 1) / 2 = a / 2 := by omega
      simp [h2]
  rw [h1, Nat.xor_comm a 1, Nat.xor_assoc, Nat.xor_self, Nat.xor_zero]

/-! ## Unfolding the decomposition loop -/

/-- The `cidr` computed by one iteration of `Range.ToIpNets`:
`max(prefixLength(xor(addOne(end), s)), ipBits - trailingZeros(s))`. -/
def stepCidr (w s e : Nat) : Nat :=
  max (prefixLength w (addOne w e ^^^ s)) (w - trailingZeros w s)

theorem toIpNetsAux_succ (w fuel s e : Nat) :
    toIpNetsAux w (fuel + 1) s e =
      if e < s then some []
      else if lastIp w s (stepCidr w s e) < e then
        match toIpNetsAux w fuel (addOne w (lastIp w s (stepCidr w s e))) e with
        | none => none
        | some rest => some ((s, stepCidr w s e) :: rest)
      else some [(s, stepCidr w s e)] := rfl

theorem toIpNetsAux_gt (w fuel s e : Nat) (h : e < s) :
    toIpNetsAux w (fuel + 1) s e = some [] := by
  rw [toIpNetsAux_succ, if_pos h]

theorem toIpNetsAux_stop (w fuel s e : Nat) (h1 : ¬ e < s)
    (h2 : ¬ lastIp w s (stepCidr w s e) < e) :
    toIpNetsAux w (fuel + 1) s e = some [(s, stepCidr w s e)] := by
  rw [toIpNetsAux_succ, if_neg h1, if_neg h2]

theorem toIpNetsAux_cont (w fuel s e : Nat) (h1 : ¬ e < s)
    (h2 : lastIp w s (stepCidr w s e) < e) :
    toIpNetsAux w (fuel + 1) s e =
      (toIpNetsAux w fuel (addOne w (lastIp w s (stepCidr w s e))) e).map
        (fun rest => (s, stepCidr w s e) :: rest) := by
  rw [toIpNetsAux_succ, if_neg h1, if_pos h2]
  cases toIpNetsAux w fuel (addOne w (lastIp w s (stepCidr w s e))) e <;> rfl

/-! ## Facts about one step -/

theorem stepCidr_le (w s e : Nat) : stepCidr w s e ≤ w := by
  rw [stepCidr]
  exact Nat.max_le.mpr ⟨Nat.sub_le _ _, Nat.sub_le _ _⟩

theorem stepCidr_align (w s e : Nat) : 2 ^ (w - stepCidr w s e) ∣ s := by
  have h1 : w - trailingZeros w s ≤ stepCidr w s e := Nat.le_max_right _ _
  have h2 : tzAux w s ≤ w := tzAux_le w s
  have h3 : trailingZeros w s = tzAux w s := rfl
  have h4 : w - stepCidr w s e ≤ tzAux w s := by omega
  exact dvd_trans (Nat.pow_dvd_pow 2 h4) (two_pow_tzAux_dvd w s)

theorem lastIp_step (w s e : Nat) :
    lastIp w s (stepCidr w s e) = s + (2 ^ (w - stepCidr w s e) - 1) :=
  lastIp_of_dvd _ _ _ (stepCidr_align w s e)

/-! ## The fuel `e + 2 - s` always suffices -/

theorem toIpNetsAux_isSome (w : Nat) : ∀ fuel : Nat, ∀ {s e : Nat}, s ≤ e → e < 2 ^ w →
    e + 2 - s ≤ fuel → ∃ l, toIpNetsAux w fuel s e = some l := by
  intro fuel
  induction fuel with
  | zero => intro s e hse he hf; omega
  | succ fuel ih =>
    intro s e hse he hf
    have h1 : ¬ e < s := Nat.not_lt.mpr hse
    by_cases h2 : lastIp w s (stepCidr w s e) < e
    · have htmp := le_lastIp w s (stepCidr w s e)
      have haddone : addOne w (lastIp w s (stepCidr w s e)) =
          lastIp w s (stepCidr w s e) + 1 := by
        rw [addOne, Nat.mod_eq_of_lt]
        omega
      obtain ⟨l, hl⟩ := ih (s := lastIp w s (stepCidr w s e) + 1) (by omega) he (by omega)
      refine ⟨(s, stepCidr w s e) :: l, ?_⟩
      rw [toIpNetsAux_cont w fuel s e h1 h2, haddone, hl]
      rfl
    · exact ⟨[(s, stepCidr w s e)], toIpNetsAux_stop w fuel s e h1 h2⟩

theorem toIpNetsAux_eq_toIpNets (w s e : Nat) (hse : s ≤ e) (he : e < 2 ^ w) :
    toIpNetsAux w (e + 2 - s) s e = some (toIpNets w s e) := by
  obtain ⟨l, hl⟩ := toIpNetsAux_isSome w (e + 2 - s) hse he (Nat.le_refl _)
  rw [toIpNets, hl]
  rfl

/-! ## Coverage of the decomposition -/

/-- Membership of address `a` in the network block `blk = (base, prefixLen)`:
the block represents the interval `[base, lastIp(base, prefixLen)]`. -/
def inBlock (w : Nat) (blk : Nat × Nat) (a : Nat) : Prop :=
  blk.1 ≤ a ∧ a ≤ lastIp w blk.1 blk.2

instance (w : Nat) (blk : Nat × Nat) (a : Nat) : Decidable (inBlock w blk a) := by
  unfold inBlock; infer_instance

/-- The top address of the final block of a block list (`dflt` for an empty
list): the loop's overall covered interval ends here. -/
def lastEndOf (w : Nat) (l : List (Nat × Nat)) (dflt : Nat) : Nat :=
  match l.getLast? with
  | some blk => lastIp w blk.1 blk.2
  | none => dflt

theorem lastEndOf_cons (w : Nat) (b : Nat × Nat) (l : List (Nat × Nat)) (d : Nat)
    (h : l ≠ []) : lastEndOf w (b :: l) d = lastEndOf w l d := by
  obtain ⟨x, xs, rfl⟩ : ∃ x xs, l = x :: xs := by
    cases l with
    | nil => exact absurd rfl h
    | cons x xs => exact ⟨x, xs, rfl⟩
  rw [lastEndOf, lastEndOf, List.getLast?_cons_cons]

theorem toIpNetsAux_ne_nil (w : Nat) : ∀ (fuel : Nat) {s e : Nat} {l : List (Nat × Nat)},
    toIpNetsAux w fuel s e = some l → s ≤ e → l ≠ [] := by
  intro fuel
  cases fuel with
  | zero =>
    intro s e l h
    simp [toIpNetsAux] at h
  | succ fuel =>
    intro s e l hl hse
    have h1 : ¬ e < s := Nat.not_lt.mpr hse
    by_cases h2 : lastIp w s (stepCidr w s e) < e
    · rw [toIpNetsAux_cont w fuel s e h1 h2] at hl
      cases hrest : toIpNetsAux w fuel (addOne w (lastIp w s (stepCidr w s e))) e with
      | none =>
        rw [hrest] at hl
        exact Option.noConfusion hl
      | some rest =>
        rw [hrest] at hl
        simp only [Option.map_some', Option.some.injEq] at hl
        rw [← hl]
        exact List.cons_ne_nil _ _
    · rw [toIpNetsAux_stop w fuel s e h1 h2] at hl
      simp only [Option.some.injEq] at hl
      rw [← hl]
      exact List.cons_ne_nil _ _

theorem toIpNetsAux_coverage (w : Nat) : ∀ fuel : Nat, ∀ {s e : Nat} {l : List (Nat × Nat)},
    toIpNetsAux w fuel s e = some l → s ≤ e → e < 2 ^ w →
    e ≤ lastEndOf w l e ∧ lastEndOf w l e < 2 ^ w ∧
      ∀ a, (∃ blk ∈ l, inBlock w blk a) ↔ (s ≤ a ∧ a ≤ lastEndOf w l e) := by
  intro fuel
  induction fuel with
  | zero =>
    intro s e l h
    simp [toIpNetsAux] at h
  | succ fuel ih =>
    intro s e l hl hse he
    have h1 : ¬ e < s := Nat.not_lt.mpr hse
    have hstmp : s ≤ lastIp w s (stepCidr w s e) := le_lastIp w s _
    by_cases h2 : lastIp w s (stepCidr w s e) < e
    · rw [toIpNetsAux_cont w fuel s e h1 h2] at hl
      have haddone : addOne w (lastIp w s (stepCidr w s e)) =
          lastIp w s (stepCidr w s e) + 1 := by
        rw [addOne, Nat.mod_eq_of_lt]
        omega
      cases hrest : toIpNetsAux w fuel (addOne w (lastIp w s (stepCidr w s e))) e with
      | none =>
        rw [hrest] at hl
        exact Option.noConfusion hl
      | some rest =>
        rw [hrest] at hl
        simp only [Option.map_some', Option.some.injEq] at hl
        rw [haddone] at hrest
        obtain ⟨hLe, hLw, hcov⟩ := ih hrest (by omega) he
        have hne : rest ≠ [] := toIpNetsAux_ne_nil w fuel hrest (by omega)
        have hL : lastEndOf w l e = lastEndOf w rest e := by
          rw [← hl]
          exact lastEndOf_cons w _ rest e hne
        rw [hL]
        refine ⟨hLe, hLw, ?_⟩
        intro a
        constructor
        · intro hmem
          rw [← hl] at hmem
          obtain ⟨blk, hmem, hba, hab⟩ := hmem
          rcases List.mem_cons.mp hmem with heq | hmem'
          · subst heq
            simp only at hba hab
            exact ⟨hba, by omega⟩
          · have := (hcov a).mp ⟨blk, hmem', hba, hab⟩
            exact ⟨by omega, this.2⟩
        · rintro ⟨hsa, haL⟩
          rw [← hl]
          by_cases hc : a ≤ lastIp w s (stepCidr w s e)
          · exact ⟨(s, stepCidr w s e), List.mem_cons_self _ _, hsa, hc⟩
          · obtain ⟨blk, hm, hb⟩ := (hcov a).mpr ⟨by omega, haL⟩
            exact ⟨blk, List.mem_cons_of_mem _ hm, hb⟩
    · rw [toIpNetsAux_stop w fuel s e h1 h2] at hl
      simp only [Option.some.injEq] at hl
      have hL : lastEndOf w l e = lastIp w s (stepCidr w s e) := by
        rw [← hl]
        rfl
      rw [hL]
      refine ⟨Nat.not_lt.mp h2, lastIp_lt w s _ (Nat.lt_of_le_of_lt hse he), ?_⟩
      intro a
      rw [← hl]
      constructor
      · rintro ⟨blk, hmem, hba, hab⟩
        rcases List.mem_singleton.mp hmem with heq
        subst heq
        exact ⟨hba, hab⟩
      · rintro ⟨hsa, haL⟩
        exact ⟨(s, stepCidr w s e), List.mem_singleton_self _, hsa, haL⟩

/-- Every emitted block has a prefix length in `[0, w]` and a base aligned to
its prefix length. -/
theorem toIpNetsAux_wellFormed (w : Nat) : ∀ fuel : Nat, ∀ {s e : Nat} {l : List (Nat × Nat)},
    toIpNetsAux w fuel s e = some l →
    ∀ blk ∈ l, blk.2 ≤ w ∧ 2 ^ (w - blk.2) ∣ blk.1 := by
  intro fuel
  induction fuel with
  | zero =>
    intro s e l h
    simp [toIpNetsAux] at h
  | succ fuel ih =>
    intro s e l hl
    by_cases h1 : e < s
    · rw [toIpNetsAux_gt w fuel s e h1] at hl
      simp only [Option.some.injEq] at hl
      intro blk hmem
      rw [← hl] at hmem
      simp at hmem
    · by_cases h2 : lastIp w s (stepCidr w s e) < e
      · rw [toIpNetsAux_cont w fuel s e h1 h2] at hl
        cases hrest : toIpNetsAux w fuel (addOne w (lastIp w s (stepCidr w s e))) e with
        | none =>
          rw [hrest] at hl
          exact Option.noConfusion hl
        | some rest =>
          rw [hrest] at hl
          simp only [Option.map_some', Option.some.injEq] at hl
          intro blk hmem
          rw [← hl] at hmem
          rcases List.mem_cons.mp hmem with heq | hmem'
          · subst heq
            exact ⟨stepCidr_le w s e, stepCidr_align w s e⟩
          · exact ih hrest blk hmem'
      · rw [toIpNetsAux_stop w fuel s e h1 h2] at hl
        simp only [Option.some.injEq] at hl
        intro blk hmem
        rw [← hl] at hmem
        rcases List.mem_singleton.mp hmem with heq
        subst heq
        exact ⟨stepCidr_le w s e, stepCidr_align w s e⟩

/-! ## Iteration bound for the decomposition loop -/

theorem bitLenAux_zero (f : Nat) : bitLenAux f 0 = 0 := by
  cases f <;> simp [bitLenAux]

theorem bitLenAux_one (f : Nat) (hf : 0 < f) : bitLenAux f 1 = 1 := by
  obtain ⟨g, rfl⟩ : ∃ g, f = g + 1 := ⟨f - 1, by omega⟩
  rw [bitLenAux, if_neg (by norm_num)]
  norm_num [bitLenAux_zero]

theorem tzAux_lt_bitLenAux (f x : Nat) (h0 : x ≠ 0) (hx : x < 2 ^ f) :
    tzAux f x < bitLenAux f x := by
  have h1 : 2 ^ tzAux f x ≤ x :=
    Nat.le_of_dvd (Nat.pos_of_ne_zero h0) (two_pow_tzAux_dvd f x)
  have h2 : x < 2 ^ bitLenAux f x := lt_two_pow_bitLenAux f x hx
  exact (Nat.pow_lt_pow_iff_right (by norm_num)).mp (Nat.lt_of_le_of_lt h1 h2)

/-- When the boundary constraint (`prefixLength` of the xor) is at least as
restrictive as the alignment constraint and `s ≠ 0`, the emitted block
reaches `e`, so the loop stops after this iteration. -/
theorem stop_of_boundary (w s e : Nat) (hse : s ≤ e) (he : e < 2 ^ w) (hs0 : s ≠ 0)
    (hbind : w - trailingZeros w s ≤ prefixLength w (addOne w e ^^^ s)) :
    e ≤ lastIp w s (stepCidr w s e) := by
  have hcidr : stepCidr w s e = prefixLength w (addOne w e ^^^ s) :=
    Nat.max_eq_left hbind
  have hs : s < 2 ^ w := Nat.lt_of_le_of_lt hse he
  by_cases htop : e + 1 < 2 ^ w
  · have haddone : addOne w e = e + 1 := Nat.mod_eq_of_lt htop
    have hxne : (e + 1) ^^^ s ≠ 0 := by
      intro h
      have := Nat.xor_eq_zero.mp h
      omega
    have hxlt : (e + 1) ^^^ s < 2 ^ w := Nat.xor_lt_two_pow htop hs
    have hB1 : bitLenAux w ((e + 1) ^^^ s) ≠ 0 := bitLenAux_ne_zero w _ hxlt hxne
    have hBw : bitLenAux w ((e + 1) ^^^ s) ≤ w := bitLenAux_self_le w _ hxlt
    have hxB : (e + 1) ^^^ s < 2 ^ bitLenAux w ((e + 1) ^^^ s) :=
      lt_two_pow_bitLenAux w _ hxlt
    have hdiv : (e + 1) / 2 ^ bitLenAux w ((e + 1) ^^^ s) =
        s / 2 ^ bitLenAux w ((e + 1) ^^^ s) := div_eq_of_xor_lt hxB
    have hpl : prefixLength w ((e + 1) ^^^ s) = w - bitLenAux w ((e + 1) ^^^ s) := rfl
    have hwc : w - stepCidr w s e = bitLenAux w ((e + 1) ^^^ s) := by
      rw [hcidr, haddone, hpl]
      omega
    rw [lastIp_eq, hwc]
    have hsplit : 2 ^ bitLenAux w ((e + 1) ^^^ s) * ((e + 1) / 2 ^ bitLenAux w ((e + 1) ^^^ s)) +
        (e + 1) % 2 ^ bitLenAux w ((e + 1) ^^^ s) = e + 1 := Nat.div_add_mod _ _
    have hmod : (e + 1) % 2 ^ bitLenAux w ((e + 1) ^^^ s) <
        2 ^ bitLenAux w ((e + 1) ^^^ s) :=
      Nat.mod_lt _ (Nat.pos_pow_of_pos _ (by norm_num))
    rw [hdiv] at hsplit
    omega
  · have he1 : e + 1 = 2 ^ w := by omega
    have haddone : addOne w e = 0 := by
      rw [addOne, he1, Nat.mod_self]
    rw [haddone, Nat.zero_xor] at hbind
    have h1 : tzAux w s < bitLenAux w s := tzAux_lt_bitLenAux w s hs0 hs
    have h2 : bitLenAux w s ≤ w := bitLenAux_self_le w s hs
    have h3 : tzAux w s ≤ w := tzAux_le w s
    have h4 : prefixLength w s = w - bitLenAux w s := rfl
    have h5 : trailingZeros w s = tzAux w s := rfl
    omega

/-- If the loop continues past `s ≠ 0`, this iteration's block was decided
by the alignment constraint, so continuing strictly increases the trailing
zero count of the cursor. -/
theorem tz_succ_of_cont (w s e : Nat) (hse : s ≤ e) (he : e < 2 ^ w) (hs0 : s ≠ 0)
    (hcont : lastIp w s (stepCidr w s e) < e) :
    lastIp w s (stepCidr w s e) + 1 = s + 2 ^ tzAux w s ∧
    tzAux w s < tzAux w (lastIp w s (stepCidr w s e) + 1) := by
  have hnb : ¬ (w - trailingZeros w s ≤ prefixLength w (addOne w e ^^^ s)) := by
    intro h
    have := stop_of_boundary w s e hse he hs0 h
    omega
  have hcidr : stepCidr w s e = w - trailingZeros w s :=
    Nat.max_eq_right (Nat.le_of_not_le hnb)
  have htz : trailingZeros w s = tzAux w s := rfl
  have htzw : tzAux w s ≤ w := tzAux_le w s
  have hwc : w - stepCidr w s e = tzAux w s := by
    rw [hcidr, htz]
    omega
  have hl := lastIp_step w s e
  rw [hwc] at hl
  have hpos : 1 ≤ 2 ^ tzAux w s := Nat.pos_pow_of_pos _ (by norm_num)
  have heq : lastIp w s (stepCidr w s e) + 1 = s + 2 ^ tzAux w s := by omega
  refine ⟨heq, ?_⟩
  have hs : s < 2 ^ w := Nat.lt_of_le_of_lt hse he
  obtain ⟨t, ht⟩ : ∃ t, t = tzAux w s := ⟨_, rfl⟩
  rw [← ht] at heq hpos htzw
  obtain ⟨q, hq⟩ := two_pow_tzAux_dvd w s
  rw [← ht] at hq
  have hsq : s / 2 ^ t = q := by
    rw [hq, Nat.mul_div_cancel_left _ (Nat.pos_pow_of_pos _ (by norm_num))]
  have hodd : q % 2 = 1 := by
    have h5 := tzAux_div_odd w s hs0 hs
    rw [← ht] at h5
    rwa [hsq] at h5
  have hdvd' : 2 ^ (t + 1) ∣ s + 2 ^ t := by
    refine ⟨(q + 1) / 2, ?_⟩
    have h2 : q + 1 = 2 * ((q + 1) / 2) := by omega
    calc s + 2 ^ t = 2 ^ t * (q + 1) := by rw [hq]; ring
      _ = 2 ^ t * (2 * ((q + 1) / 2)) := by rw [← h2]
      _ = 2 ^ (t + 1) * ((q + 1) / 2) := by rw [Nat.pow_succ]; ring
  have hs'ne : s + 2 ^ t ≠ 0 := by omega
  have hs'lt : s + 2 ^ t < 2 ^ w := by omega
  have hlast := le_tzAux w (s + 2 ^ t) (t + 1) hs'lt hs'ne hdvd'
  rw [heq, ← ht]
  omega

theorem toIpNetsAux_length_pos (w : Nat) : ∀ fuel : Nat, ∀ {s e : Nat} {l : List (Nat × Nat)},
    toIpNetsAux w fuel s e = some l → s ≠ 0 → s ≤ e → e < 2 ^ w →
    l.length ≤ w - tzAux w s := by
  intro fuel
  induction fuel with
  | zero =>
    intro s e l h
    simp [toIpNetsAux] at h
  | succ fuel ih =>
    intro s e l hl hs0 hse he
    have h1 : ¬ e < s := Nat.not_lt.mpr hse
    have hs : s < 2 ^ w := Nat.lt_of_le_of_lt hse he
    have htzlt : tzAux w s < w := tzAux_lt w s hs0 hs
    by_cases h2 : lastIp w s (stepCidr w s e) < e
    · rw [toIpNetsAux_cont w fuel s e h1 h2] at hl
      cases hrest : toIpNetsAux w fuel (addOne w (lastIp w s (stepCidr w s e))) e with
      | none =>
        rw [hrest] at hl
        exact Option.noConfusion hl
      | some rest =>
        rw [hrest] at hl
        simp only [Option.map_some', Option.some.injEq] at hl
        obtain ⟨heq, hlt⟩ := tz_succ_of_cont w s e hse he hs0 h2
        have htmp := le_lastIp w s (stepCidr w s e)
        have haddone : addOne w (lastIp w s (stepCidr w s e)) =
            lastIp w s (stepCidr w s e) + 1 := by
          rw [addOne, Nat.mod_eq_of_lt]
          omega
        rw [haddone] at hrest
        have hrest_len := ih hrest (by omega) (by omega) he
        have htzw' : tzAux w (lastIp w s (stepCidr w s e) + 1) ≤ w := tzAux_le w _
        rw [← hl]
        simp only [List.length_cons]
        omega
    · rw [toIpNetsAux_stop w fuel s e h1 h2] at hl
      simp only [Option.some.injEq] at hl
      rw [← hl]
      simp only [List.length_singleton]
      omega

/-- The decomposition loop emits at most `w + 1` blocks. -/
theorem toIpNetsAux_length (w fuel : Nat) {s e : Nat} {l : List (Nat × Nat)}
    (hl : toIpNetsAux w fuel s e = some l) (hse : s ≤ e) (he : e < 2 ^ w) (hw : 0 < w) :
    l.length ≤ w + 1 := by
  by_cases hs0 : s = 0
  case neg =>
    have := toIpNetsAux_length_pos w fuel hl hs0 hse he
    omega
  case pos =>
    subst hs0
    cases fuel with
    | zero => simp [toIpNetsAux] at hl
    | succ fuel =>
      have h1 : ¬ e < 0 := by omega
      have h2w : 2 ≤ 2 ^ w := by
        calc 2 = 2 ^ 1 := by norm_num
          _ ≤ 2 ^ w := Nat.pow_le_pow_right (by norm_num) hw
      have hsc : stepCidr w 0 e = prefixLength w (addOne w e) := by
        rw [stepCidr, Nat.xor_zero]
        have htz0 : trailingZeros w 0 = w := tzAux_zero w
        rw [htz0, Nat.sub_self]
        exact Nat.max_eq_left (Nat.zero_le _)
      by_cases htop : e + 1 < 2 ^ w
      · have haddone : addOne w e = e + 1 := Nat.mod_eq_of_lt htop
        have hBle : bitLenAux w (e + 1) ≤ w := bitLenAux_self_le w _ htop
        have htmp : lastIp w 0 (stepCidr w 0 e) = 2 ^ bitLenAux w (e + 1) - 1 := by
          rw [lastIp_of_dvd _ _ _ (dvd_zero _), hsc, haddone]
          have hwb : w - prefixLength w (e + 1) = bitLenAux w (e + 1) := by
            have : prefixLength w (e + 1) = w - bitLenAux w (e + 1) := rfl
            omega
          rw [hwb, Nat.zero_add]
        have he1B : e + 1 < 2 ^ bitLenAux w (e + 1) := lt_two_pow_bitLenAux w (e + 1) htop
        have hstop : ¬ lastIp w 0 (stepCidr w 0 e) < e := by
          rw [htmp]
          omega
        rw [toIpNetsAux_stop w fuel 0 e h1 hstop] at hl
        simp only [Option.some.injEq] at hl
        rw [← hl]
        simp only [List.length_singleton]
        omega
      · have he1 : e + 1 = 2 ^ w := by omega
        have haddone : addOne w e = 0 := by
          rw [addOne, he1, Nat.mod_self]
        have hsc0 : stepCidr w 0 e = w := by
          rw [hsc, haddone]
          have h4 : prefixLength w 0 = w - bitLenAux w 0 := rfl
          rw [h4, bitLenAux_zero, Nat.sub_zero]
        have htmp : lastIp w 0 (stepCidr w 0 e) = 0 := by
          rw [lastIp_of_dvd _ _ _ (dvd_zero _), hsc0, Nat.sub_self, Nat.pow_zero]
        have hcont : lastIp w 0 (stepCidr w 0 e) < e := by
          rw [htmp]
          omega
        rw [toIpNetsAux_cont w fuel 0 e h1 hcont] at hl
        cases hrest : toIpNetsAux w fuel (addOne w (lastIp w 0 (stepCidr w 0 e))) e with
        | none =>
          rw [hrest] at hl
          exact Option.noConfusion hl
        | some rest =>
          rw [hrest] at hl
          simp only [Option.map_some', Option.some.injEq] at hl
          have haddone1 : addOne w (lastIp w 0 (stepCidr w 0 e)) = 1 := by
            rw [htmp, addOne]
            exact Nat.mod_eq_of_lt (by omega)
          rw [haddone1] at hrest
          have hrest_len := toIpNetsAux_length_pos w fuel hrest (by norm_num)
            (by omega) he
          have htz1 : tzAux w 1 = 0 := tzAux_of_odd w 1 (by norm_num)
          rw [← hl]
          simp only [List.length_cons]
          omega

/-! ## Single-address decomposition -/

theorem addOne_lt (w x : Nat) : addOne w x < 2 ^ w :=
  Nat.mod_lt _ (Nat.pos_pow_of_pos _ (by norm_num))

theorem toIpNetsAux_single (w a fuel : Nat) (hw : 0 < w) (ha : a < 2 ^ w) :
    toIpNetsAux w (fuel + 1) a a = some [(a, if a % 2 = 0 then w - 1 else w)] := by
  have h1 : ¬ a < a := Nat.lt_irrefl a
  by_cases hpar : a % 2 = 1
  · have htz : trailingZeros w a = 0 := tzAux_of_odd w a hpar
    have hsc : stepCidr w a a = w := by
      rw [stepCidr, htz, Nat.sub_zero]
      exact Nat.max_eq_right (Nat.sub_le _ _)
    have hstop : ¬ lastIp w a (stepCidr w a a) < a := by
      rw [hsc, lastIp_of_dvd _ _ _ (by rw [Nat.sub_self, Nat.pow_zero]; exact Nat.one_dvd _),
        Nat.sub_self, Nat.pow_zero]
      omega
    rw [toIpNetsAux_stop w fuel a a h1 hstop, hsc, if_neg (by omega : ¬ a % 2 = 0)]
  · have hpar0 : a % 2 = 0 := by omega
    have h2dvd : (2 : Nat) ∣ 2 ^ w := by
      obtain ⟨v, rfl⟩ : ∃ v, w = v + 1 := ⟨w - 1, by omega⟩
      exact ⟨2 ^ v, by rw [Nat.pow_succ]; ring⟩
    have haddone : addOne w a = a + 1 := by
      rw [addOne]
      exact Nat.mod_eq_of_lt (by omega)
    have hx : addOne w a ^^^ a = 1 := by
      rw [haddone]
      exact succ_xor_self_of_even hpar0
    have hpl : prefixLength w 1 = w - 1 := by
      rw [prefixLength, bitLenAux_one w hw]
    have halign : w - trailingZeros w a ≤ w - 1 := by
      by_cases ha0 : a = 0
      · subst ha0
        rw [show trailingZeros w 0 = w from tzAux_zero w]
        omega
      · have h2a : (2 : Nat) ^ 1 ∣ a := by
          rw [Nat.pow_one]
          exact Nat.dvd_of_mod_eq_zero hpar0
        have htz1 : 1 ≤ tzAux w a := le_tzAux w a 1 ha ha0 h2a
        have : trailingZeros w a = tzAux w a := rfl
        omega
    have hsc : stepCidr w a a = w - 1 := by
      rw [stepCidr, hx, hpl]
      exact Nat.max_eq_left halign
    have hww : w - (w - 1) = 1 := by omega
    have hlast : lastIp w a (stepCidr w a a) = a + 1 := by
      rw [hsc, lastIp_of_dvd _ _ _ (by rw [hww, Nat.pow_one]; exact Nat.dvd_of_mod_eq_zero hpar0),
        hww, Nat.pow_one]
    have hstop : ¬ lastIp w a (stepCidr w a a) < a := by
      rw [hlast]
      omega
    rw [toIpNetsAux_stop w fuel a a h1 hstop, hsc, if_pos hpar0]

theorem toIpNets_single (w a : Nat) (hw : 0 < w) (ha : a < 2 ^ w) :
    toIpNets w a a = [(a, if a % 2 = 0 then w - 1 else w)] := by
  have hf : a + 2 - a = 1 + 1 := by omega
  rw [toIpNets, hf, toIpNetsAux_single w a 1 hw ha]
  rfl

/-! ## Round trip of a network block through ToRange and ToIpNets -/

theorem toIpNetsAux_roundTrip (w b p fuel : Nat) (hw : 0 < w) (hp1 : 1 ≤ p) (hpw : p ≤ w)
    (hb : b < 2 ^ w) (halign : 2 ^ (w - p) ∣ b) (hodd : (b / 2 ^ (w - p)) % 2 = 1) :
    toIpNetsAux w (fuel + 1) b (lastIp w b p) = some [(b, p)] := by
  have hlast : lastIp w b p = b + (2 ^ (w - p) - 1) := lastIp_of_dvd w b p halign
  have helt : lastIp w b p < 2 ^ w := lastIp_lt w b p hb
  have hble : b ≤ lastIp w b p := le_lastIp w b p
  have h1 : ¬ lastIp w b p < b := Nat.not_lt.mpr hble
  have hppos : 1 ≤ 2 ^ (w - p) := Nat.pos_pow_of_pos _ (by norm_num)
  obtain ⟨q, hq⟩ := halign
  have hqq : b / 2 ^ (w - p) = q := by
    rw [hq, Nat.mul_div_cancel_left _ (Nat.pos_pow_of_pos _ (by norm_num))]
  rw [hqq] at hodd
  have htzb : tzAux w b = w - p := tzAux_eq w b (w - p) hb ⟨q, hq⟩ (by rw [hqq]; exact hodd)
  have halignp : w - trailingZeros w b = p := by
    have htzr : trailingZeros w b = tzAux w b := rfl
    omega
  have hplle : prefixLength w (addOne w (lastIp w b p) ^^^ b) ≤ p := by
    by_cases htop : lastIp w b p + 1 < 2 ^ w
    · have haddone : addOne w (lastIp w b p) = lastIp w b p + 1 := Nat.mod_eq_of_lt htop
      have he1 : lastIp w b p + 1 = b + 2 ^ (w - p) := by omega
      have he1q : lastIp w b p + 1 = (q + 1) * 2 ^ (w - p) := by
        rw [he1, hq]
        ring
      have hxor : addOne w (lastIp w b p) ^^^ b = ((q + 1) ^^^ q) * 2 ^ (w - p) := by
        rw [haddone, he1q, hq, Nat.mul_comm (2 ^ (w - p)) q]
        exact xor_mul_two_pow (q + 1) q (w - p)
      have hne : (q + 1) ^^^ q ≠ 0 := by
        intro h
        have := Nat.xor_eq_zero.mp h
        omega
      have hgex : 2 ^ (w - p) ≤ ((q + 1) ^^^ q) * 2 ^ (w - p) :=
        Nat.le_mul_of_pos_left _ (Nat.pos_of_ne_zero hne)
      have hxlt : ((q + 1) ^^^ q) * 2 ^ (w - p) < 2 ^ w := by
        rw [← hxor]
        exact Nat.xor_lt_two_pow (addOne_lt w _) hb
      have hbl : ¬ bitLenAux w (((q + 1) ^^^ q) * 2 ^ (w - p)) ≤ w - p := by
        rw [bitLenAux_le_iff w _ hxlt]
        omega
      have hblw : bitLenAux w (((q + 1) ^^^ q) * 2 ^ (w - p)) ≤ w :=
        bitLenAux_self_le w _ hxlt
      have hpleq : prefixLength w (addOne w (lastIp w b p) ^^^ b) =
          w - bitLenAux w (((q + 1) ^^^ q) * 2 ^ (w - p)) := by
        rw [hxor]
        rfl
      omega
    · have he1 : lastIp w b p + 1 = 2 ^ w := by omega
      have haddone : addOne w (lastIp w b p) = 0 := by
        rw [addOne, he1, Nat.mod_self]
      rw [haddone, Nat.zero_xor]
      have hple : 2 ^ (w - p) ≤ 2 ^ (w - 1) := Nat.pow_le_pow_right (by norm_num) (by omega)
      have h2w : 2 ^ w = 2 ^ (w - 1) * 2 := by
        rw [← Nat.pow_succ]
        congr 1
        omega
      have hb' : 2 ^ (w - 1) ≤ b := by omega
      have hble2 : ¬ bitLenAux w b ≤ w - 1 := by
        rw [bitLenAux_le_iff w _ hb]
        omega
      have hpl : prefixLength w b = w - bitLenAux w b := rfl
      have hblw : bitLenAux w b ≤ w := bitLenAux_self_le w b hb
      omega
  have hsc : stepCidr w b (lastIp w b p) = p := by
    rw [stepCidr, halignp]
    exact Nat.max_eq_right hplle
  have hstop : ¬ lastIp w b (stepCidr w b (lastIp w b p)) < lastIp w b p := by
    rw [hsc]
    exact Nat.lt_irrefl _
  rw [toIpNetsAux_stop w fuel b (lastIp w b p) h1 hstop, hsc]

theorem toIpNets_roundTrip (w b p : Nat) (hw : 0 < w) (hp1 : 1 ≤ p) (hpw : p ≤ w)
    (hb : b < 2 ^ w) (halign : 2 ^ (w - p) ∣ b) (hodd : (b / 2 ^ (w - p)) % 2 = 1) :
    toIpNets w b (lastIp w b p) = [(b, p)] := by
  have hble := le_lastIp w b p
  have hf : lastIp w b p + 2 - b = (lastIp w b p + 1 - b) + 1 := by omega
  rw [toIpNets, hf, toIpNetsAux_roundTrip w b p _ hw hp1 hpw hb halign hodd]
  rfl

/-! ## Merge scan lemmas -/

theorem extendEnd_start (cur nx : Range) : (extendEnd cur nx).start = cur.start := by
  rw [extendEnd]
  split <;> rfl

theorem extendEnd_endIp (cur nx : Range) : (extendEnd cur nx).endIp = max cur.endIp nx.endIp := by
  rw [extendEnd]
  split
  case isTrue h => exact (Nat.max_eq_right (Nat.le_of_lt h)).symm
  case isFalse h => exact (Nat.max_eq_left (Nat.le_of_not_lt h)).symm

theorem mergeScan_nil (w : Nat) (cur : Range) : mergeScan w cur [] = ([cur], cur, []) := rfl

theorem mergeScan_cons_merge (w : Nat) (cur nx : Range) (rest : List Range)
    (h : nx.start ≤ addOne w cur.endIp) :
    mergeScan w cur (nx :: rest) =
      ((mergeScan w (extendEnd cur nx) rest).1,
       (mergeScan w (extendEnd cur nx) rest).2.1,
       nx :: (mergeScan w (extendEnd cur nx) rest).2.2) := by
  rw [mergeScan, if_pos h]

theorem mergeScan_cons_emit (w : Nat) (cur nx : Range) (rest : List Range)
    (h : ¬ nx.start ≤ addOne w cur.endIp) :
    mergeScan w cur (nx :: rest) =
      (cur :: (mergeScan w nx rest).1,
       cur,
       (mergeScan w nx rest).2.1 :: (mergeScan w nx rest).2.2) := by
  rw [mergeScan, if_neg h]

/-- The first output interval starts where the initial accumulator starts, and
its end is at least the accumulator's end. -/
theorem mergeScan_head (w : Nat) : ∀ (rest : List Range) (cur : Range),
    ∃ c1 os, (mergeScan w cur rest).1 = c1 :: os ∧
      c1.start = cur.start ∧ cur.endIp ≤ c1.endIp := by
  intro rest
  induction rest with
  | nil =>
    intro cur
    exact ⟨cur, [], rfl, rfl, Nat.le_refl _⟩
  | cons nx rest ih =>
    intro cur
    by_cases h : nx.start ≤ addOne w cur.endIp
    · rw [mergeScan_cons_merge w cur nx rest h]
      obtain ⟨c1, os, heq, hs, he⟩ := ih (extendEnd cur nx)
      refine ⟨c1, os, heq, ?_, ?_⟩
      · rw [hs, extendEnd_start]
      · have := extendEnd_endIp cur nx
        have h2 : cur.endIp ≤ (extendEnd cur nx).endIp := by omega
        omega
    · rw [mergeScan_cons_emit w cur nx rest h]
      exact ⟨cur, (mergeScan w nx rest).1, rfl, rfl, Nat.le_refl _⟩

/-- Structure of the output of the merge scan, given sorted input: the
outputs fail the adjacency test pairwise-consecutively (this is exactly the
emit condition), are sorted by start, and all start at or after the
accumulator's start. -/
theorem mergeScan_structure (w : Nat) : ∀ (rest : List Range) (cur : Range),
    (∀ r ∈ rest, cur.start ≤ r.start) → List.Sorted startLE rest →
    List.Chain' (fun A B => ¬ B.start ≤ addOne w A.endIp) (mergeScan w cur rest).1 ∧
    List.Sorted startLE (mergeScan w cur rest).1 ∧
    ∀ o ∈ (mergeScan w cur rest).1, cur.start ≤ o.start := by
  intro rest
  induction rest with
  | nil =>
    intro cur _ _
    rw [mergeScan_nil]
    refine ⟨List.chain'_singleton _, List.sorted_singleton _, ?_⟩
    intro o ho
    rw [List.mem_singleton.mp ho]
  | cons nx rest ih =>
    intro cur hmin hsort
    have hsort' : List.Sorted startLE rest := hsort.of_cons
    have hnxmin : ∀ r ∈ rest, nx.start ≤ r.start := fun r hr =>
      List.rel_of_sorted_cons hsort r hr
    by_cases h : nx.start ≤ addOne w cur.endIp
    · rw [mergeScan_cons_merge w cur nx rest h]
      have hmin' : ∀ r ∈ rest, (extendEnd cur nx).start ≤ r.start := by
        intro r hr
        rw [extendEnd_start]
        exact hmin r (List.mem_cons_of_mem _ hr)
      obtain ⟨hchain, hsorted, hstarts⟩ := ih (extendEnd cur nx) hmin' hsort'
      refine ⟨hchain, hsorted, ?_⟩
      intro o ho
      have := hstarts o ho
      rw [extendEnd_start] at this
      exact this
    · rw [mergeScan_cons_emit w cur nx rest h]
      obtain ⟨hchain, hsorted, hstarts⟩ := ih nx hnxmin hsort'
      obtain ⟨c1, os, heq, hc1s, _⟩ := mergeScan_head w rest nx
      have hcurnx : cur.start ≤ nx.start := hmin nx (List.mem_cons_self _ _)
      refine ⟨?_, ?_, ?_⟩
      · rw [heq]
        rw [heq] at hchain
        exact List.Chain'.cons (by rw [hc1s]; exact h) hchain
      · rw [List.sorted_cons]
        refine ⟨?_, hsorted⟩
        intro b hb
        have := hstarts b hb
        show cur.start ≤ b.start
        omega
      · intro o ho
        rcases List.mem_cons.mp ho with rfl | ho'
        · exact Nat.le_refl _
        · have := hstarts o ho'
          omega

/-- The union of addresses covered by the scan's outputs equals the union
covered by the accumulator and the remaining intervals. -/
theorem mergeScan_covers (w : Nat) : ∀ (rest : List Range) (cur : Range),
    cur.start ≤ cur.endIp → cur.endIp < 2 ^ w →
    (∀ r ∈ rest, r.start ≤ r.endIp ∧ r.endIp < 2 ^ w) →
    (∀ r ∈ rest, cur.start ≤ r.start) → List.Sorted startLE rest →
    ∀ a, (∃ r ∈ (mergeScan w cur rest).1, inRange r a) ↔
      (inRange cur a ∨ ∃ r ∈ rest, inRange r a) := by
  intro rest
  induction rest with
  | nil =>
    intro cur _ _ _ _ _ a
    rw [mergeScan_nil]
    simp
  | cons nx rest ih =>
    intro cur hcse hceb hwf hmin hsort a
    have hnx := hwf nx (List.mem_cons_self _ _)
    have hwf' : ∀ r ∈ rest, r.start ≤ r.endIp ∧ r.endIp < 2 ^ w := fun r hr =>
      hwf r (List.mem_cons_of_mem _ hr)
    have hsort' : List.Sorted startLE rest := hsort.of_cons
    have hnxmin : ∀ r ∈ rest, nx.start ≤ r.start := fun r hr =>
      List.rel_of_sorted_cons hsort r hr
    have hcn : cur.start ≤ nx.start := hmin nx (List.mem_cons_self _ _)
    by_cases h : nx.start ≤ addOne w cur.endIp
    · rw [mergeScan_cons_merge w cur nx rest h]
      have hext := extendEnd_start cur nx
      have hexe := extendEnd_endIp cur nx
      have hcur1 : (extendEnd cur nx).start ≤ (extendEnd cur nx).endIp := by
        rw [hext, hexe]
        omega
      have hcur2 : (extendEnd cur nx).endIp < 2 ^ w := by
        rw [hexe]
        omega
      have hmin' : ∀ r ∈ rest, (extendEnd cur nx).start ≤ r.start := by
        intro r hr
        rw [hext]
        exact hmin r (List.mem_cons_of_mem _ hr)
      have hiff : inRange (extendEnd cur nx) a ↔ (inRange cur a ∨ inRange nx a) := by
        rw [inRange, inRange, inRange, hext, hexe]
        by_cases htop : cur.endIp + 1 < 2 ^ w
        · have h1 : addOne w cur.endIp = cur.endIp + 1 := Nat.mod_eq_of_lt htop
          rw [h1] at h
          omega
        · have hpos : (1 : Nat) ≤ 2 ^ w := Nat.pos_pow_of_pos _ (by norm_num)
          have he1 : cur.endIp + 1 = 2 ^ w := by omega
          have h1 : addOne w cur.endIp = 0 := by
            rw [addOne, he1, Nat.mod_self]
          rw [h1] at h
          omega
      rw [ih (extendEnd cur nx) hcur1 hcur2 hwf' hmin' hsort' a, hiff]
      simp only [List.mem_cons, exists_eq_or_imp]
      tauto
    · rw [mergeScan_cons_emit w cur nx rest h]
      have hx := ih nx hnx.1 hnx.2 hwf' hnxmin hsort' a
      simp only [List.mem_cons, exists_eq_or_imp]
      rw [hx]

/-- Outputs of the scan are well-formed intervals with ends bounded by `B`
whenever the accumulator and all remaining intervals are. -/
theorem mergeScan_wf (w B : Nat) : ∀ (rest : List Range) (cur : Range),
    cur.start ≤ cur.endIp → cur.endIp < B →
    (∀ r ∈ rest, r.start ≤ r.endIp ∧ r.endIp < B) →
    ∀ o ∈ (mergeScan w cur rest).1, o.start ≤ o.endIp ∧ o.endIp < B := by
  intro rest
  induction rest with
  | nil =>
    intro cur h1 h2 _ o ho
    rw [mergeScan_nil] at ho
    rw [List.mem_singleton.mp ho]
    exact ⟨h1, h2⟩
  | cons nx rest ih =>
    intro cur h1 h2 hwf o ho
    have hnx := hwf nx (List.mem_cons_self _ _)
    have hwf' : ∀ r ∈ rest, r.start ≤ r.endIp ∧ r.endIp < B := fun r hr =>
      hwf r (List.mem_cons_of_mem _ hr)
    by_cases h : nx.start ≤ addOne w cur.endIp
    · rw [mergeScan_cons_merge w cur nx rest h] at ho
      have hext := extendEnd_start cur nx
      have hexe := extendEnd_endIp cur nx
      exact ih (extendEnd cur nx) (by rw [hext, hexe]; omega) (by rw [hexe]; omega) hwf' o ho
    · rw [mergeScan_cons_emit w cur nx rest h] at ho
      rcases List.mem_cons.mp ho with rfl | ho'
      · exact ⟨h1, h2⟩
      · exact ih nx hnx.1 hnx.2 hwf' o ho'

/-- When no interval ends at the top of the address space, failing the
adjacency test means there is a real gap of at least one address. -/
theorem chain_addOne_to_succ (w : Nat) : ∀ l : List Range,
    List.Chain' (fun A B => ¬ B.start ≤ addOne w A.endIp) l →
    (∀ r ∈ l, r.endIp < 2 ^ w - 1) →
    List.Chain' (fun A B => A.endIp + 1 < B.start) l := by
  intro l
  induction l with
  | nil => intro _ _; exact List.chain'_nil
  | cons a l ih =>
    intro hc hb
    cases l with
    | nil => exact List.chain'_singleton _
    | cons b l' =>
      rw [List.chain'_cons] at hc ⊢
      obtain ⟨hab, htail⟩ := hc
      have ha := hb a (List.mem_cons_self _ _)
      have hpos : (1 : Nat) ≤ 2 ^ w := Nat.pos_pow_of_pos _ (by norm_num)
      have h1 : addOne w a.endIp = a.endIp + 1 := Nat.mod_eq_of_lt (by omega)
      rw [h1] at hab
      refine ⟨by omega, ih htail ?_⟩
      intro r hr
      exact hb r (List.mem_cons_of_mem _ hr)

/-- A consecutive gap chain over well-formed intervals is in fact pairwise. -/
theorem chain_succ_pairwise : ∀ l : List Range,
    List.Chain' (fun A B => A.endIp + 1 < B.start) l →
    (∀ r ∈ l, r.start ≤ r.endIp) →
    l.Pairwise (fun A B => A.endIp + 1 < B.start) := by
  intro l
  induction l with
  | nil => intro _ _; exact List.Pairwise.nil
  | cons a l ih =>
    intro hc hwf
    cases l with
    | nil => exact List.pairwise_singleton _ _
    | cons b l' =>
      rw [List.chain'_cons] at hc
      obtain ⟨hab, htail⟩ := hc
      have hwf' : ∀ r ∈ b :: l', r.start ≤ r.endIp := fun r hr =>
        hwf r (List.mem_cons_of_mem _ hr)
      have hp := ih htail hwf'
      refine List.Pairwise.cons ?_ hp
      intro x hx
      rcases List.mem_cons.mp hx with rfl | hx'
      · exact hab
      · have hbx := List.rel_of_pairwise_cons hp hx'
        have hbwf := hwf' b (List.mem_cons_self _ _)
        omega

/-- Scanning a list in which every consecutive pair already fails the
adjacency test emits every interval unchanged. -/
theorem mergeScan_of_chain (w : Nat) : ∀ (rest : List Range) (cur : Range),
    List.Chain' (fun A B => ¬ B.start ≤ addOne w A.endIp) (cur :: rest) →
    (mergeScan w cur rest).1 = cur :: rest := by
  intro rest
  induction rest with
  | nil => intro cur _; rw [mergeScan_nil]
  | cons nx rest ih =>
    intro cur hc
    rw [List.chain'_cons] at hc
    obtain ⟨hh, ht⟩ := hc
    rw [mergeScan_cons_emit w cur nx rest hh]
    show cur :: (mergeScan w nx rest).1 = cur :: nx :: rest
    rw [ih nx ht]

/-- Final slot values after the scan: the start of every slot is unchanged
and its end can only grow. -/
theorem mergeScan_finals (w : Nat) : ∀ (rest : List Range) (cur : Range),
    ((mergeScan w cur rest).2.1.start = cur.start ∧
      cur.endIp ≤ (mergeScan w cur rest).2.1.endIp) ∧
    List.Forall₂ (fun orig fin => orig.start = fin.start ∧ orig.endIp ≤ fin.endIp)
      rest (mergeScan w cur rest).2.2 := by
  intro rest
  induction rest with
  | nil =>
    intro cur
    rw [mergeScan_nil]
    exact ⟨⟨rfl, Nat.le_refl _⟩, List.Forall₂.nil⟩
  | cons nx rest ih =>
    intro cur
    by_cases h : nx.start ≤ addOne w cur.endIp
    · rw [mergeScan_cons_merge w cur nx rest h]
      dsimp only
      obtain ⟨⟨hs, he⟩, hf⟩ := ih (extendEnd cur nx)
      have hext := extendEnd_start cur nx
      have hexe := extendEnd_endIp cur nx
      refine ⟨⟨by rw [hs, hext], by omega⟩, ?_⟩
      exact List.Forall₂.cons ⟨rfl, Nat.le_refl _⟩ hf
    · rw [mergeScan_cons_emit w cur nx rest h]
      dsimp only
      obtain ⟨⟨hs, he⟩, hf⟩ := ih nx
      exact ⟨⟨rfl, Nat.le_refl _⟩, List.Forall₂.cons ⟨hs.symm, he⟩ hf⟩

/-! ## MergeRanges-level helpers -/

theorem sortRanges_sorted (rs : List Range) : List.Sorted startLE (sortRanges rs) :=
  List.sorted_insertionSort startLE rs

theorem sortRanges_perm (rs : List Range) : (sortRanges rs).Perm rs :=
  List.perm_insertionSort startLE rs

theorem MergeRanges_eq_nil (w : Nat) (rs : List Range) (h : sortRanges rs = []) :
    MergeRanges w rs = [] := by
  unfold MergeRanges
  rw [h]

theorem MergeRanges_eq_cons (w : Nat) (rs : List Range) (h : Range) (t : List Range)
    (hs : sortRanges rs = h :: t) : MergeRanges w rs = (mergeScan w h t).1 := by
  unfold MergeRanges
  rw [hs]

theorem mergeFinalStates_eq_nil (w : Nat) (rs : List Range) (h : sortRanges rs = []) :
    mergeFinalStates w rs = [] := by
  unfold mergeFinalStates
  rw [h]

theorem mergeFinalStates_eq_cons (w : Nat) (rs : List Range) (h : Range) (t : List Range)
    (hs : sortRanges rs = h :: t) :
    mergeFinalStates w rs = (mergeScan w h t).2.1 :: (mergeScan w h t).2.2 := by
  unfold mergeFinalStates
  rw [hs]

theorem covers_perm {l1 l2 : List Range} (h : l1.Perm l2) (a : Nat) :
    covers l1 a ↔ covers l2 a := by
  unfold covers
  constructor
  · rintro ⟨r, hr, hin⟩
    exact ⟨r, h.mem_iff.mp hr, hin⟩
  · rintro ⟨r, hr, hin⟩
    exact ⟨r, h.mem_iff.mpr hr, hin⟩

/-! ## Claims -/

/-- C1, counterexample: decomposing `[8, 14]` in the 32-bit family returns
the single block `8/29`, whose addresses run up to 15; the address 15 lies
in a returned block but outside `[8, 14]`, so the union of the returned
blocks is not exactly `[s, e]`. -/
theorem c1_coverage_counterexample :
    toIpNets 32 8 14 = [(8, 29)] ∧ inBlock 32 (8, 29) 15 ∧ ¬ (15 : Nat) ≤ 14 := by
  decide

/-- C1, amended: for every well-formed same-length interval `[s, e]` with
`s ≤ e`, the union of the addresses of the blocks returned by
`Range.ToIpNets` is the contiguous interval from `s` up to the top address
of the final block, which is at least `e`: every address of `[s, e]` lies in
some returned block and no returned block contains an address below `s`,
but the final block may extend past `e`. -/
theorem c1_coverage_amended (w s e a : Nat) (hse : s ≤ e) (he : e < 2 ^ w) :
    e ≤ lastEndOf w (toIpNets w s e) e ∧
    ((∃ blk ∈ toIpNets w s e, inBlock w blk a) ↔
      (s ≤ a ∧ a ≤ lastEndOf w (toIpNets w s e) e)) := by
  have hsome := toIpNetsAux_eq_toIpNets w s e hse he
  obtain ⟨h1, _, h3⟩ := toIpNetsAux_coverage w (e + 2 - s) hsome hse he
  exact ⟨h1, h3 a⟩

/-- C1, witness: the amended coverage at the concrete interval
`[192.168.1.0, 192.168.1.255]` and the address `192.168.1.35`. -/
theorem c1_coverage_amended_witness :
    (0xc0a80100 : Nat) ≤ 0xc0a801ff ∧ (0xc0a801ff : Nat) < 2 ^ 32 ∧
    ((0xc0a801ff : Nat) ≤ lastEndOf 32 (toIpNets 32 0xc0a80100 0xc0a801ff) 0xc0a801ff ∧
      ((∃ blk ∈ toIpNets 32 0xc0a80100 0xc0a801ff, inBlock 32 blk 0xc0a80123) ↔
        ((0xc0a80100 : Nat) ≤ 0xc0a80123 ∧
          (0xc0a80123 : Nat) ≤ lastEndOf 32 (toIpNets 32 0xc0a80100 0xc0a801ff) 0xc0a801ff))) :=
  ⟨by decide, by decide,
    c1_coverage_amended 32 0xc0a80100 0xc0a801ff 0xc0a80123 (by decide) (by decide)⟩

/-- C2, counterexample: with an input interval ending at the maximum address
of its family, the adjacency test `addOne(current.end) ≥ next.start` wraps
to zero, so the contained later interval `[5, 10]` is not coalesced: the two
output intervals overlap, violating pairwise disjointness. -/
theorem c2_merge_shape_counterexample :
    MergeRanges 32 [⟨0, 2 ^ 32 - 1⟩, ⟨5, 10⟩] = [⟨0, 2 ^ 32 - 1⟩, ⟨5, 10⟩] ∧
    ¬ (MergeRanges 32 [⟨0, 2 ^ 32 - 1⟩, ⟨5, 10⟩]).Pairwise
        (fun A B => A.endIp < B.start ∨ B.endIp < A.start) := by
  decide

/-- C2, amended: provided every input interval is well-formed and no input
interval ends at the maximum address of its family, the list returned by
`MergeRanges` is strictly sorted by start address, pairwise disjoint, and no
two output intervals are adjacent (for any two outputs `A` before `B`,
`A.end + 1 < B.start`). -/
theorem c2_merge_shape_amended (w : Nat) (rs : List Range)
    (hwf : ∀ r ∈ rs, r.start ≤ r.endIp ∧ r.endIp < 2 ^ w - 1) :
    (MergeRanges w rs).Pairwise (fun A B => A.start < B.start) ∧
    (MergeRanges w rs).Pairwise (fun A B => A.endIp < B.start ∨ B.endIp < A.start) ∧
    (MergeRanges w rs).Pairwise (fun A B => A.endIp + 1 < B.start) := by
  cases hs : sortRanges rs with
  | nil =>
    rw [MergeRanges_eq_nil w rs hs]
    exact ⟨List.Pairwise.nil, List.Pairwise.nil, List.Pairwise.nil⟩
  | cons h t =>
    rw [MergeRanges_eq_cons w rs h t hs]
    have hsorted := sortRanges_sorted rs
    rw [hs] at hsorted
    have hperm := sortRanges_perm rs
    rw [hs] at hperm
    have hwfs : ∀ r ∈ h :: t, r.start ≤ r.endIp ∧ r.endIp < 2 ^ w - 1 := fun r hr =>
      hwf r (hperm.subset hr)
    have hmin : ∀ r ∈ t, h.start ≤ r.start := fun r hr =>
      List.rel_of_sorted_cons hsorted r hr
    obtain ⟨hchain, _, _⟩ := mergeScan_structure w t h hmin hsorted.of_cons
    have hh := hwfs h (List.mem_cons_self _ _)
    have hOwf : ∀ o ∈ (mergeScan w h t).1, o.start ≤ o.endIp ∧ o.endIp < 2 ^ w - 1 :=
      mergeScan_wf w (2 ^ w - 1) t h hh.1 hh.2
        (fun r hr => hwfs r (List.mem_cons_of_mem _ hr))
    have hchain2 := chain_addOne_to_succ w _ hchain (fun r hr => (hOwf r hr).2)
    have hpair := chain_succ_pairwise _ hchain2 (fun r hr => (hOwf r hr).1)
    refine ⟨?_, ?_, hpair⟩
    · refine List.Pairwise.imp_of_mem ?_ hpair
      intro a b ha hb hr
      have := (hOwf a ha).1
      omega
    · refine List.Pairwise.imp_of_mem ?_ hpair
      intro a b ha hb hr
      left
      omega

/-- C2, witness: the amended output shape at a concrete unsorted input with
an overlapping pair. -/
theorem c2_merge_shape_amended_witness :
    (∀ r ∈ [(⟨20, 30⟩ : Range), ⟨1, 5⟩, ⟨4, 9⟩], r.start ≤ r.endIp ∧ r.endIp < 2 ^ 32 - 1) ∧
    ((MergeRanges 32 [⟨20, 30⟩, ⟨1, 5⟩, ⟨4, 9⟩]).Pairwise (fun A B => A.start < B.start) ∧
      (MergeRanges 32 [⟨20, 30⟩, ⟨1, 5⟩, ⟨4, 9⟩]).Pairwise
        (fun A B => A.endIp < B.start ∨ B.endIp < A.start) ∧
      (MergeRanges 32 [⟨20, 30⟩, ⟨1, 5⟩, ⟨4, 9⟩]).Pairwise
        (fun A B => A.endIp + 1 < B.start)) :=
  ⟨by decide, c2_merge_shape_amended 32 [⟨20, 30⟩, ⟨1, 5⟩, ⟨4, 9⟩] (by decide)⟩

/-- C3, counterexample: decomposing the single-address interval `[0, 0]` in
the 32-bit family yields one block with prefix length 31, not the full bit
width 32 (the block `0/31` covers the two addresses 0 and 1). -/
theorem c3_single_counterexample :
    toIpNets 32 0 0 = [(0, 31)] ∧ (31 : Nat) ≠ 32 := by
  decide

/-- C3, amended: decomposing `[a, a]` yields exactly one block, whose prefix
length is the full bit width when `a` is odd but bit width minus one when
`a` is even (the emitted block then also covers `a + 1`). -/
theorem c3_single_amended (w a : Nat) (hw : 0 < w) (ha : a < 2 ^ w) :
    toIpNets w a a = [(a, if a % 2 = 0 then w - 1 else w)] :=
  toIpNets_single w a hw ha

/-- C3, witness: the amended single-address decomposition at `a = 10`. -/
theorem c3_single_amended_witness :
    (0 : Nat) < 32 ∧ (10 : Nat) < 2 ^ 32 ∧
    toIpNets 32 10 10 = [(10, if 10 % 2 = 0 then 32 - 1 else 32)] :=
  ⟨by decide, by decide, c3_single_amended 32 10 (by decide) (by decide)⟩

/-- C4, counterexample: decomposing the full 32-bit range emits 33 blocks,
one more than the bit width, so the loop runs more than `bitWidth`
iterations. -/
theorem c4_length_counterexample :
    (toIpNets 32 0 (2 ^ 32 - 1)).length = 33 ∧
    ¬ (toIpNets 32 0 (2 ^ 32 - 1)).length ≤ 32 := by
  decide

/-- C4, amended: for every well-formed interval the decomposition loop runs
at most `bitWidth + 1` iterations, i.e. the returned list contains at most
`bitWidth + 1` blocks (the bound is attained only by the full range). -/
theorem c4_length_amended (w s e : Nat) (hw : 0 < w) (hse : s ≤ e) (he : e < 2 ^ w) :
    (toIpNets w s e).length ≤ w + 1 := by
  have hsome := toIpNetsAux_eq_toIpNets w s e hse he
  exact toIpNetsAux_length w (e + 2 - s) hsome hse he hw

/-- C4, witness: the amended bound at the concrete interval `[8, 14]`. -/
theorem c4_length_amended_witness :
    (0 : Nat) < 32 ∧ (8 : Nat) ≤ 14 ∧ (14 : Nat) < 2 ^ 32 ∧
    (toIpNets 32 8 14).length ≤ 32 + 1 :=
  ⟨by decide, by decide, by decide, c4_length_amended 32 8 14 (by decide) (by decide) (by decide)⟩

/-- C5, counterexample: merging the directly-supplied ranges `[0, 5]` and
`[3, 10]` rewrites the first input's end to 10 (Go's `ToRange` on a `*Range`
returns the receiver, and the scan's `current.end = next.end` writes through
that pointer), so an input `Range` does not keep the end it had before the
call. -/
theorem c5_mutation_counterexample :
    mergeFinalStates 32 [⟨0, 5⟩, ⟨3, 10⟩] = [⟨0, 10⟩, ⟨3, 10⟩] ∧
    sortRanges [⟨0, 5⟩, ⟨3, 10⟩] = [⟨0, 5⟩, ⟨3, 10⟩] ∧
    ((⟨0, 10⟩ : Range) ≠ ⟨0, 5⟩) := by
  decide

/-- C5, amended: `MergeRanges` never changes the start of any input `Range`
and never shrinks an end: after the call, each input (viewed in sorted
order) has its original start, and its end is at least its original end
(the end of an input that serves as the accumulator may have been replaced
by a larger one). -/
theorem c5_mutation_amended (w : Nat) (rs : List Range) :
    List.Forall₂ (fun orig fin => orig.start = fin.start ∧ orig.endIp ≤ fin.endIp)
      (sortRanges rs) (mergeFinalStates w rs) := by
  cases hs : sortRanges rs with
  | nil =>
    rw [mergeFinalStates_eq_nil w rs hs]
    exact List.Forall₂.nil
  | cons h t =>
    rw [mergeFinalStates_eq_cons w rs h t hs]
    obtain ⟨⟨h1, h2⟩, hf⟩ := mergeScan_finals w t h
    exact List.Forall₂.cons ⟨h1.symm, h2⟩ hf

/-- C6, counterexample: the well-formed network block `0/32` (base 0, full
prefix length, trivially aligned) converts to the interval `[0, 0]`, whose
decomposition is `[(0, 31)]`, not the original block. -/
theorem c6_roundtrip_counterexample :
    (32 ≤ 32 ∧ 2 ^ (32 - 32) ∣ 0) ∧
    Range.ToIpNets 32 (ipNetToRange 32 0 32) = [(0, 31)] ∧
    [((0 : Nat), (31 : Nat))] ≠ [(0, 32)] := by
  decide

/-- C6, amended: a well-formed network block `(b, p)` with `1 ≤ p ≤ w` whose
base has bit `w - p` set (that is, `b / 2^(w-p)` is odd) round-trips: the
interval produced by `IpNetWrapper.ToRange` decomposes back to exactly
`[(b, p)]`.  Blocks whose base is even at that bit (including base 0 and
prefix 0) do not round-trip. -/
theorem c6_roundtrip_amended (w b p : Nat) (hw : 0 < w) (hp1 : 1 ≤ p) (hpw : p ≤ w)
    (hb : b < 2 ^ w) (halign : 2 ^ (w - p) ∣ b) (hodd : (b / 2 ^ (w - p)) % 2 = 1) :
    Range.ToIpNets w (ipNetToRange w b p) = [(b, p)] :=
  toIpNets_roundTrip w b p hw hp1 hpw hb halign hodd

/-- C6, witness: the block `192.168.1.0/24` round-trips. -/
theorem c6_roundtrip_amended_witness :
    ((0 : Nat) < 32 ∧ (1 : Nat) ≤ 24 ∧ (24 : Nat) ≤ 32 ∧ (0xc0a80100 : Nat) < 2 ^ 32 ∧
      2 ^ (32 - 24) ∣ (0xc0a80100 : Nat) ∧ ((0xc0a80100 : Nat) / 2 ^ (32 - 24)) % 2 = 1) ∧
    Range.ToIpNets 32 (ipNetToRange 32 0xc0a80100 24) = [(0xc0a80100, 24)] :=
  ⟨⟨by decide, by decide, by decide, by decide, by decide, by decide⟩,
    c6_roundtrip_amended 32 0xc0a80100 24 (by decide) (by decide) (by decide) (by decide)
      (by decide) (by decide)⟩

/-- C7, confirmed: every network block emitted by `Range.ToIpNets` is
well-formed — its prefix length is at most the bit width and its base has
all bits below the prefix length equal to zero. -/
theorem c7_alignment (w s e b p : Nat) (hmem : (b, p) ∈ toIpNets w s e) :
    p ≤ w ∧ 2 ^ (w - p) ∣ b := by
  rw [toIpNets] at hmem
  cases haux : toIpNetsAux w (e + 2 - s) s e with
  | none =>
    rw [haux] at hmem
    simp at hmem
  | some l =>
    rw [haux] at hmem
    exact toIpNetsAux_wellFormed w (e + 2 - s) haux (b, p) hmem

/-- C7, witness: the block emitted for `[192.168.1.0, 192.168.1.255]` is
aligned. -/
theorem c7_alignment_witness :
    ((0xc0a80100 : Nat), (24 : Nat)) ∈ toIpNets 32 0xc0a80100 0xc0a801ff ∧
    ((24 : Nat) ≤ 32 ∧ 2 ^ (32 - 24) ∣ (0xc0a80100 : Nat)) :=
  ⟨by decide, c7_alignment 32 0xc0a80100 0xc0a801ff 0xc0a80100 24 (by decide)⟩

/-- C8, confirmed: for well-formed input intervals, an address is covered by
some interval returned by `MergeRanges` exactly when it is covered by some
input interval. -/
theorem c8_union_preservation (w : Nat) (rs : List Range)
    (hwf : ∀ r ∈ rs, r.start ≤ r.endIp ∧ r.endIp < 2 ^ w) (a : Nat) :
    covers (MergeRanges w rs) a ↔ covers rs a := by
  cases hs : sortRanges rs with
  | nil =>
    rw [MergeRanges_eq_nil w rs hs]
    have hperm := sortRanges_perm rs
    rw [hs] at hperm
    rw [hperm.symm.eq_nil]
  | cons h t =>
    rw [MergeRanges_eq_cons w rs h t hs]
    have hsorted := sortRanges_sorted rs
    rw [hs] at hsorted
    have hperm := sortRanges_perm rs
    rw [hs] at hperm
    have hwfs : ∀ r ∈ h :: t, r.start ≤ r.endIp ∧ r.endIp < 2 ^ w := fun r hr =>
      hwf r (hperm.subset hr)
    have hmin : ∀ r ∈ t, h.start ≤ r.start := fun r hr =>
      List.rel_of_sorted_cons hsorted r hr
    have hh := hwfs h (List.mem_cons_self _ _)
    have hiff := mergeScan_covers w t h hh.1 hh.2
      (fun r hr => hwfs r (List.mem_cons_of_mem _ hr)) hmin hsorted.of_cons a
    rw [← covers_perm hperm a]
    unfold covers
    rw [hiff]
    simp only [List.mem_cons, exists_eq_or_imp]

/-- C8, witness: union preservation at a concrete overlapping input and the
address 7. -/
theorem c8_union_preservation_witness :
    (∀ r ∈ [(⟨1, 5⟩ : Range), ⟨4, 9⟩], r.start ≤ r.endIp ∧ r.endIp < 2 ^ 32) ∧
    (covers (MergeRanges 32 [⟨1, 5⟩, ⟨4, 9⟩]) 7 ↔ covers [⟨1, 5⟩, ⟨4, 9⟩] 7) :=
  ⟨by decide, c8_union_preservation 32 [⟨1, 5⟩, ⟨4, 9⟩] (by decide) 7⟩

/-- C9, confirmed: applying `MergeRanges` to its own output returns the
output unchanged — the output is sorted by start, every consecutive pair
fails the adjacency test, so the re-sort is the identity and the re-scan
emits every interval unchanged.  This holds for arbitrary inputs, even
ill-formed ones. -/
theorem c9_merge_idempotent (w : Nat) (rs : List Range) :
    MergeRanges w (MergeRanges w rs) = MergeRanges w rs := by
  cases hs : sortRanges rs with
  | nil =>
    rw [MergeRanges_eq_nil w rs hs]
    exact MergeRanges_eq_nil w [] rfl
  | cons h t =>
    rw [MergeRanges_eq_cons w rs h t hs]
    have hsorted := sortRanges_sorted rs
    rw [hs] at hsorted
    have hmin : ∀ r ∈ t, h.start ≤ r.start := fun r hr =>
      List.rel_of_sorted_cons hsorted r hr
    obtain ⟨hchain, hOsorted, _⟩ := mergeScan_structure w t h hmin hsorted.of_cons
    obtain ⟨c1, os, hOeq, _, _⟩ := mergeScan_head w t h
    have hsortO : sortRanges ((mergeScan w h t).1) = (mergeScan w h t).1 :=
      List.Sorted.insertionSort_eq hOsorted
    rw [MergeRanges_eq_cons w ((mergeScan w h t).1) c1 os (by rw [hsortO, hOeq])]
    rw [hOeq] at hchain
    rw [mergeScan_of_chain w os c1 hchain, ← hOeq]

/-- C10, confirmed: for `s > e` (inverted interval) the decomposition loop
breaks immediately and `Range.ToIpNets` returns the empty list. -/
theorem c10_inverted_empty (w s e : Nat) (h : e < s) : toIpNets w s e = [] := by
  rcases hf : e + 2 - s with _ | k
  · rw [toIpNets, hf]
    rfl
  · rw [toIpNets, hf, toIpNetsAux_gt w k s e h]
    rfl

/-- C10, witness: the inverted interval `[5, 3]` decomposes to the empty
list. -/
theorem c10_inverted_empty_witness :
    (3 : Nat) < 5 ∧ toIpNets 32 5 3 = [] :=
  ⟨by decide, c10_inverted_empty 32 5 3 (by decide)⟩

end GoCidr
